import Mathlib

/-!
# Verification of the miku workspace engine

A shallow embedding of the workspace indexing and mutation engine of the
miku note editor (`src-tauri/src/workspace.rs`, `src-tauri/src/file_ops.rs`),
together with proofs of the specified properties.

Modelling conventions:
* A directory tree on disk is an `FsTree`; a directory carries a `readable`
  flag modelling whether `tokio::fs::read_dir` succeeds on it.
* Rust `Path` helpers (`file_name`, `extension`, `parent`, `join`) are
  embedded as functions on plain strings over Unix-style `/`-separated paths.
* Rust's `str::to_lowercase` is embedded as per-character lowercasing
  (`Char.toLower`), which agrees with it on ASCII names.
* The `sort_by` call in `list_directory` uses a stable sort; it is embedded
  as the stable `List.insertionSort` with the same comparator.
* For the mutation operation `rename_file` the filesystem is modelled by the
  set of existing paths; `tokio::fs::rename` replaces the old path.
* The persisted `workspace_config.json` is modelled as
  `Option WorkspaceConfig` (absent, or present with parsed contents);
  whether a path exists on disk is modelled by membership in a list.
-/

namespace Miku

/-- Error type of `commands.rs` (`MikuError`): IO, JSON and Path errors,
each carrying a display message. -/
inductive MikuError where
  | io (msg : String)
  | json (msg : String)
  | path (msg : String)
deriving DecidableEq, Repr

/-! ## Path helpers (embedding of `std::path::Path` operations) -/

/-- First character of a string, if any. -/
def strHead? (s : String) : Option Char :=
  s.data.head?

/-- Split a character list on a separator character. -/
def splitOnSep (sep : Char) : List Char → List (List Char)
  | [] => [[]]
  | c :: cs =>
    let r := splitOnSep sep cs
    if c = sep then [] :: r
    else
      match r with
      | [] => [[c]]
      | g :: gs => (c :: g) :: gs

/-- Path components in the sense of `Path::components` on Unix paths:
split on `/`, dropping empty components and `.` components. -/
def pathComponents (p : String) : List String :=
  ((splitOnSep '/' p.data).map String.mk).filter fun s => !(s == "") && !(s == ".")

/-- `Path::file_name`: the last path component, unless it is `..`. -/
def fileNameOf (p : String) : Option String :=
  match (pathComponents p).getLast? with
  | some s => if s = ".." then none else some s
  | none => none

/-- Extension of a bare file name, per Rust `Path::extension` semantics:
the portion after the last `.`, unless the only `.` is the leading
character (hidden files such as `.gitignore` have no extension). -/
def extensionOfName (n : String) : Option String :=
  match splitOnSep '.' n.data with
  | [] => none
  | [_] => none
  | [[], _] => none
  | parts => parts.getLast?.map String.mk

/-- `Path::extension`: extension of the file name of the path. -/
def extensionOf (p : String) : Option String :=
  (fileNameOf p).bind extensionOfName

/-- Per-character lowercasing, the embedding of `str::to_lowercase`
(they agree on ASCII). -/
def lowerStr (s : String) : String :=
  String.mk (s.data.map Char.toLower)

/-- `PathBuf::join` with a (usually relative) child: an absolute child
replaces the base, otherwise the child is appended with a `/` separator. -/
def joinPath (base child : String) : String :=
  if strHead? child == some '/' then child
  else if base == "" then child
  else if base.data.getLast? == some '/' then base ++ child
  else base ++ "/" ++ child

/-- Drop trailing `/` characters. -/
def stripTrailingSlashes (cs : List Char) : List Char :=
  (cs.reverse.dropWhile fun c => c = '/').reverse

/-- `Path::parent`: the path without its final component; `none` for the
filesystem root `/` and for the empty path. -/
def parentOf (p : String) : Option String :=
  match stripTrailingSlashes p.data with
  | [] => none
  | cs =>
    let withSlash := (cs.reverse.dropWhile fun c => c ≠ '/').reverse
    match stripTrailingSlashes withSlash with
    | [] => if withSlash = [] then some "" else some "/"
    | pre => some (String.mk pre)

/-! ## PathClassifier (`file_ops.rs` / the filters inside `list_directory`) -/

/-- `is_markdown_file` from `file_ops.rs`: the path's extension, lower-cased,
is `md`, `markdown` or `mdown`. -/
def is_markdown_file (p : String) : Bool :=
  match extensionOf p with
  | some ext => lowerStr ext == "md" || lowerStr ext == "markdown" || lowerStr ext == "mdown"
  | none => false

/-- The markdown-extension test `list_directory` applies to a directory-entry
file name (`workspace.rs` lines 173–183). -/
def nameIsMarkdown (n : String) : Bool :=
  match extensionOfName n with
  | some ext => lowerStr ext == "md" || lowerStr ext == "markdown" || lowerStr ext == "mdown"
  | none => false

/-- The skip test of `list_directory` (`workspace.rs` line 149): hidden
entries (leading `.`), `node_modules`, and `target`. -/
def excludedName (n : String) : Bool :=
  strHead? n == some '.' || n == "node_modules" || n == "target"

/-! ## Data model -/

/-- A directory tree on disk.  A directory records whether enumerating it
(`tokio::fs::read_dir`) succeeds, modelling permission-denied subtrees. -/
inductive FsTree where
  | file (name : String) : FsTree
  | dir (name : String) (readable : Bool) (entries : List FsTree) : FsTree

/-- Name of a filesystem entry. -/
def fsName : FsTree → String
  | .file n => n
  | .dir n _ _ => n

/-- The `WorkspaceFile` tree node of `workspace.rs`. -/
inductive WorkspaceFile where
  | mk (name : String) (path : String) (isDirectory : Bool)
      (children : Option (List WorkspaceFile)) : WorkspaceFile

def WorkspaceFile.name : WorkspaceFile → String
  | ⟨n, _, _, _⟩ => n

def WorkspaceFile.path : WorkspaceFile → String
  | ⟨_, p, _, _⟩ => p

def WorkspaceFile.isDirectory : WorkspaceFile → Bool
  | ⟨_, _, d, _⟩ => d

def WorkspaceFile.children : WorkspaceFile → Option (List WorkspaceFile)
  | ⟨_, _, _, c⟩ => c

/-! ## Sibling ordering (the `sort_by` comparator of `list_directory`) -/

/-- Lexicographic comparison of character lists in code-point order, the
embedding of Rust's byte-lexicographic `String` ordering (the two agree on
valid UTF-8). -/
def charsLE : List Char → List Char → Bool
  | [], _ => true
  | _ :: _, [] => false
  | a :: as, b :: bs => if a = b then charsLE as bs else decide (a < b)

/-- Case-insensitive lexicographic string comparison,
`a.to_lowercase() <= b.to_lowercase()`. -/
def ciLE (a b : String) : Bool :=
  charsLE (lowerStr a).data (lowerStr b).data

/-- The sibling comparator of `list_directory` (lines 188–194), as a
boolean non-strict total preorder: directories sort before files, and
within a type group names compare case-insensitively. -/
def fileLEb (a b : WorkspaceFile) : Bool :=
  match a.isDirectory, b.isDirectory with
  | true, false => true
  | false, true => false
  | _, _ => ciLE a.name b.name

/-- The comparator as a relation, for use with `List.insertionSort`. -/
def fileLE (a b : WorkspaceFile) : Prop :=
  fileLEb a b = true

instance : DecidableRel fileLE := fun a b =>
  inferInstanceAs (Decidable (fileLEb a b = true))

/-- The stable sort applied to each sibling sequence (Rust's
`slice::sort_by` is a stable sort). -/
def sortFiles (l : List WorkspaceFile) : List WorkspaceFile :=
  List.insertionSort fileLE l

/-! ## TreeBuilder (`list_directory`) -/

mutual

/-- The nodes contributed to the enclosing listing by one directory entry,
following `list_directory` lines 144–185: excluded entries are skipped;
for a subdirectory the recursive listing is attempted (failure is swallowed
into `children := none`), and the node is kept only if the listing is
non-empty or the current call is the root call; a file is kept only if its
extension is a markdown extension. -/
def entryNodes (parent : String) (isRoot : Bool) : FsTree → List WorkspaceFile
  | .file n =>
    if excludedName n then []
    else if nameIsMarkdown n then [⟨n, joinPath parent n, false, none⟩]
    else []
  | .dir n true es =>
    if excludedName n then []
    else if !(sortFiles (listEntries (joinPath parent n) false es)).isEmpty || isRoot then
      [⟨n, joinPath parent n, true,
        some (sortFiles (listEntries (joinPath parent n) false es))⟩]
    else []
  | .dir n false _ =>
    if excludedName n then []
    else if isRoot then [⟨n, joinPath parent n, true, none⟩] else []

/-- The unsorted collection loop of `list_directory` over the enumerated
entries of a directory. -/
def listEntries (parent : String) (isRoot : Bool) : List FsTree → List WorkspaceFile
  | [] => []
  | e :: rest => entryNodes parent isRoot e ++ listEntries parent isRoot rest

end

/-- `list_directory(path, is_root)`: fails when the argument is not an
enumerable directory (`read_dir` error), otherwise returns the filtered,
pruned and sorted immediate children. -/
def list_directory (path : String) (t : FsTree) (isRoot : Bool) :
    Except MikuError (List WorkspaceFile) :=
  match t with
  | .file _ => .error (.io "Not a directory")
  | .dir _ false _ => .error (.io "Permission denied")
  | .dir _ true es => .ok (sortFiles (listEntries path isRoot es))

/-- `list_workspace_files(workspace_path)`: delegates to `list_directory`
with `is_root = true` (the existence precondition holds whenever the tree
is given). -/
def list_workspace_files (path : String) (t : FsTree) :
    Except MikuError (List WorkspaceFile) :=
  list_directory path t true

/-- Forest reachability inside a listed tree: `Reach l l'` holds when `l'`
is `l` itself or the `children` sequence of some node reachable from `l`.
Every sibling sequence "at some level" of the result is a reachable
forest. -/
inductive Reach : List WorkspaceFile → List WorkspaceFile → Prop where
  | refl (l : List WorkspaceFile) : Reach l l
  | step {l m l' : List WorkspaceFile} (wf : WorkspaceFile) (hmem : wf ∈ l)
      (hch : wf.children = some m) (h : Reach m l') : Reach l l'

/-! ## WorkspaceStore / WorkspaceService (`workspace.rs` lines 30–123) -/

/-- The persisted workspace record. -/
structure Workspace where
  path : String
  name : String
deriving DecidableEq, Repr

/-- The persisted configuration document `workspace_config.json`. -/
structure WorkspaceConfig where
  current_workspace : Option String
  recent_workspaces : List Workspace
deriving DecidableEq, Repr

/-- `WorkspaceConfig::default()`. -/
def defaultWorkspaceConfig : WorkspaceConfig :=
  { current_workspace := none, recent_workspaces := [] }

/-- `load_workspace_config`: when the config file does not exist the default
configuration is returned, not an error.  The stored file is modelled as
`Option WorkspaceConfig` (absent, or present with its parsed contents). -/
def load_workspace_config : Option WorkspaceConfig → Except MikuError WorkspaceConfig
  | some cfg => .ok cfg
  | none => .ok defaultWorkspaceConfig

/-- `get_workspace_info(path)`: display name from the final path segment,
with the fixed fallback label `"Workspace"`. -/
def get_workspace_info (path : String) : Workspace :=
  { path := path, name := (fileNameOf path).getD "Workspace" }

/-- `set_workspace(path)` acting on the loaded configuration: set the
current workspace, then dedupe-by-path, move to front and truncate the
recent list to 10.  The function consults no filesystem state. -/
def set_workspace (cfg : WorkspaceConfig) (path : String) : WorkspaceConfig :=
  let workspace := get_workspace_info path
  let retained := cfg.recent_workspaces.filter fun w => w.path != workspace.path
  { current_workspace := some path,
    recent_workspaces := (workspace :: retained).take 10 }

/-- A sequence of `set_workspace` calls, applied in order. -/
def applyCalls (cfg : WorkspaceConfig) : List String → WorkspaceConfig
  | [] => cfg
  | p :: ps => applyCalls (set_workspace cfg p) ps

/-- Deduplication keeping the first occurrence of each element.  Applied to
the reversed call sequence it spells out "most-recent-first": each distinct
path at the position of its latest call, latest call first. -/
def dedupKeepFirst : List String → List String
  | [] => []
  | p :: ps => p :: (dedupKeepFirst ps).filter fun q => q != p

/-- `get_current_workspace()`: the stored current workspace when its path
still exists on disk (membership in `fs`), otherwise `none`; never an
error after a successful load. -/
def get_current_workspace (store : Option WorkspaceConfig) (fs : List String) :
    Except MikuError (Option Workspace) :=
  match load_workspace_config store with
  | .error e => .error e
  | .ok config =>
    match config.current_workspace with
    | some path =>
      if fs.contains path then .ok (some (get_workspace_info path)) else .ok none
    | none => .ok none

/-- `get_recent_workspaces()`: the stored recent list filtered to paths that
currently exist. -/
def get_recent_workspaces (store : Option WorkspaceConfig) (fs : List String) :
    Except MikuError (List Workspace) :=
  match load_workspace_config store with
  | .error e => .error e
  | .ok config => .ok (config.recent_workspaces.filter fun w => fs.contains w.path)

/-! ## MutationOps (`rename_file`, `workspace.rs` lines 248–267) -/

/-- The filesystem as seen by the mutation operations: the set of existing
absolute paths. -/
structure FlatFs where
  paths : List String
deriving DecidableEq, Repr

/-- Path existence (`Path::exists`). -/
def fsMember (fs : FlatFs) (p : String) : Bool :=
  fs.paths.contains p

/-- `rename_file(old_path, new_name)`: existence check, parent lookup,
target-collision check, then the rename (modelled as replacing the old
path in the set of existing paths).  The returned pair is the command
result together with the filesystem after the call. -/
def rename_file (fs : FlatFs) (old_path new_name : String) :
    Except MikuError String × FlatFs :=
  if !(fsMember fs old_path) then
    (.error (.path "Path does not exist"), fs)
  else
    match parentOf old_path with
    | none => (.error (.path "Cannot determine parent directory"), fs)
    | some parent =>
      let new_path := joinPath parent new_name
      if fsMember fs new_path then
        (.error (.path "A file with that name already exists"), fs)
      else
        (.ok new_path, ⟨fs.paths.map fun q => if q = old_path then new_path else q⟩)

/-- Invariant of the persisted configuration maintained by `set_workspace`:
at most 10 recent entries, no duplicate paths. -/
def ConfigInv (cfg : WorkspaceConfig) : Prop :=
  cfg.recent_workspaces.length ≤ 10 ∧
    (cfg.recent_workspaces.map Workspace.path).Nodup

/-! ## Basic lemmas about the comparator -/

theorem charsLE_trans : ∀ {a b c : List Char},
    charsLE a b = true → charsLE b c = true → charsLE a c = true
  | [], _, _, _, _ => rfl
  | _ :: _, [], _, h, _ => by simp [charsLE] at h
  | _ :: _, _ :: _, [], _, h => by simp [charsLE] at h
  | x :: xs, y :: ys, z :: zs, h1, h2 => by
    simp only [charsLE] at h1 h2 ⊢
    by_cases hxy : x = y
    · subst hxy
      simp only [if_pos rfl] at h1
      by_cases hyz : x = z
      · subst hyz
        simp only [if_pos rfl] at h2 ⊢
        exact charsLE_trans h1 h2
      · simp only [if_neg hyz] at h2 ⊢
        exact h2
    · simp only [if_neg hxy] at h1
      replace h1 : x < y := of_decide_eq_true h1
      by_cases hyz : y = z
      · subst hyz
        simp only [if_neg hxy]
        exact decide_eq_true h1
      · replace h2 : y < z := of_decide_eq_true (by simpa [if_neg hyz] using h2)
        have hxz : x < z := lt_trans h1 h2
        simp only [if_neg (ne_of_lt hxz)]
        exact decide_eq_true hxz

theorem charsLE_total : ∀ (a b : List Char), charsLE a b = true ∨ charsLE b a = true
  | [], _ => .inl rfl
  | _ :: _, [] => .inr rfl
  | x :: xs, y :: ys => by
    by_cases hxy : x = y
    · subst hxy
      rcases charsLE_total xs ys with h | h
      · exact .inl (by simpa [charsLE] using h)
      · exact .inr (by simpa [charsLE] using h)
    · rcases lt_or_gt_of_ne hxy with h | h
      · exact .inl (by simp [charsLE, if_neg hxy, decide_eq_true h])
      · exact .inr (by simp [charsLE, if_neg (Ne.symm hxy), decide_eq_true h])

instance : IsTrans WorkspaceFile fileLE where
  trans a b c hab hbc := by
    obtain ⟨na, pa, da, ca⟩ := a
    obtain ⟨nb, pb, db, cb⟩ := b
    obtain ⟨nc, pc, dc, cc⟩ := c
    cases da <;> cases db <;> cases dc <;>
      simp_all [fileLE, fileLEb, WorkspaceFile.isDirectory, WorkspaceFile.name, ciLE] <;>
      exact charsLE_trans hab hbc

instance : IsTotal WorkspaceFile fileLE where
  total a b := by
    obtain ⟨na, pa, da, ca⟩ := a
    obtain ⟨nb, pb, db, cb⟩ := b
    cases da <;> cases db <;>
      simp_all [fileLE, fileLEb, WorkspaceFile.isDirectory, WorkspaceFile.name, ciLE] <;>
      exact charsLE_total _ _

theorem sortFiles_sorted (l : List WorkspaceFile) : (sortFiles l).Pairwise fileLE :=
  List.sorted_insertionSort fileLE l

theorem mem_sortFiles {x : WorkspaceFile} {l : List WorkspaceFile} :
    x ∈ sortFiles l ↔ x ∈ l :=
  List.mem_insertionSort fileLE

/-! ## Inversion lemmas for the tree builder -/

/-- Every node contributed by a single directory entry has a non-excluded
name; a file node has no `children` and a markdown name; a directory node's
`children`, when present, is a recursive non-root listing; and in a non-root
call a node never carries empty `children`. -/
theorem entryNodes_inv {parent : String} {isRoot : Bool} {e : FsTree}
    {wf : WorkspaceFile} (h : wf ∈ entryNodes parent isRoot e) :
    excludedName wf.name = false ∧
      (wf.isDirectory = false → wf.children = none ∧ nameIsMarkdown wf.name = true) ∧
      (∀ m, wf.children = some m →
        ∃ p2 es2, m = sortFiles (listEntries p2 false es2)) ∧
      (isRoot = false → wf.children ≠ some []) := by
  cases e with
  | file n =>
    simp only [entryNodes] at h
    split at h
    · simp at h
    next hex =>
      split at h
      next hmd =>
        simp only [List.mem_singleton] at h
        subst h
        refine ⟨by simpa [WorkspaceFile.name] using hex, ?_, ?_, ?_⟩
        · intro _
          exact ⟨rfl, hmd⟩
        · intro m hm
          exact Option.noConfusion hm
        · intro _ hm
          exact Option.noConfusion hm
      · simp at h
  | dir n r des =>
    cases r with
    | true =>
      simp only [entryNodes] at h
      split at h
      · simp at h
      next hex =>
        split at h
        next hcond =>
          simp only [List.mem_singleton] at h
          subst h
          refine ⟨by simpa [WorkspaceFile.name] using hex, ?_, ?_, ?_⟩
          · intro hfd
            exact absurd hfd (by simp [WorkspaceFile.isDirectory])
          · intro m hm
            refine ⟨joinPath parent n, des, ?_⟩
            have : some (sortFiles (listEntries (joinPath parent n) false des)) = some m := hm
            exact (Option.some.inj this).symm
          · intro hroot hsome
            rw [hroot] at hcond
            simp only [Bool.or_false, Bool.not_eq_true'] at hcond
            have : some (sortFiles (listEntries (joinPath parent n) false des)) =
                some ([] : List WorkspaceFile) := hsome
            rw [Option.some.inj this] at hcond
            simp at hcond
        · simp at h
    | false =>
      simp only [entryNodes] at h
      split at h
      · simp at h
      next hex =>
        split at h
        next hroot =>
          simp only [List.mem_singleton] at h
          subst h
          refine ⟨by simpa [WorkspaceFile.name] using hex, ?_, ?_, ?_⟩
          · intro hfd
            exact absurd hfd (by simp [WorkspaceFile.isDirectory])
          · intro m hm
            exact Option.noConfusion hm
          · intro hfalse
            rw [hfalse] at hroot
            exact absurd hroot (by simp)
        · simp at h

/-- The same facts for every node of a whole (unsorted) listing. -/
theorem listEntries_inv :
    ∀ {es : List FsTree} {parent : String} {isRoot : Bool} {wf : WorkspaceFile},
      wf ∈ listEntries parent isRoot es →
      excludedName wf.name = false ∧
        (wf.isDirectory = false → wf.children = none ∧ nameIsMarkdown wf.name = true) ∧
        (∀ m, wf.children = some m →
          ∃ p2 es2, m = sortFiles (listEntries p2 false es2)) ∧
        (isRoot = false → wf.children ≠ some [])
  | [], _, _, _, h => by simp [listEntries] at h
  | e :: rest, parent, isRoot, wf, h => by
    rcases List.mem_append.1 (by simpa only [listEntries] using h) with h1 | h2
    · exact entryNodes_inv h1
    · exact listEntries_inv h2

/-- Successful `list_workspace_files` inversion: the target is a readable
directory and the result is its sorted root listing. -/
theorem list_workspace_files_ok {path : String} {t : FsTree}
    {l : List WorkspaceFile} (h : list_workspace_files path t = .ok l) :
    ∃ n es, t = .dir n true es ∧ l = sortFiles (listEntries path true es) := by
  cases t with
  | file n => simp [list_workspace_files, list_directory] at h
  | dir n r es =>
    cases r with
    | false => simp [list_workspace_files, list_directory] at h
    | true =>
      refine ⟨n, es, rfl, ?_⟩
      simpa [list_workspace_files, list_directory, eq_comm] using h

/-- Every forest reachable from a sorted listing is itself a sorted listing;
strictly below the starting forest it is always a non-root listing. -/
theorem reach_shape {l0 l' : List WorkspaceFile} (h : Reach l0 l') :
    ∀ p b es, l0 = sortFiles (listEntries p b es) →
      l' = l0 ∨ ∃ p' es', l' = sortFiles (listEntries p' false es') := by
  induction h with
  | refl l => exact fun _ _ _ _ => .inl rfl
  | step wf hmem hch _ ih =>
    intro p b es h0
    subst h0
    have hmem' : wf ∈ listEntries p b es := mem_sortFiles.1 hmem
    obtain ⟨p2, es2, hm⟩ := (listEntries_inv hmem').2.2.1 _ hch
    rcases ih p2 false es2 hm with h' | h'
    · exact .inr ⟨p2, es2, h'.trans hm⟩
    · exact .inr h'

/-- Every forest reachable inside a `list_workspace_files` result is a
sorted listing. -/
theorem reach_listing {path : String} {t : FsTree} {l l' : List WorkspaceFile}
    (h : list_workspace_files path t = .ok l) (hr : Reach l l') :
    ∃ p b es, l' = sortFiles (listEntries p b es) := by
  obtain ⟨n, es, _, hl⟩ := list_workspace_files_ok h
  rcases reach_shape hr path true es hl with h' | ⟨p', es', h'⟩
  · exact ⟨path, true, es, h'.trans hl⟩
  · exact ⟨p', false, es', h'⟩

/-- Node-level facts for every node reachable inside a result tree. -/
theorem reach_node_inv {path : String} {t : FsTree} {l l' : List WorkspaceFile}
    (h : list_workspace_files path t = .ok l) (hr : Reach l l')
    {wf : WorkspaceFile} (hw : wf ∈ l') :
    excludedName wf.name = false ∧
      (wf.isDirectory = false → wf.children = none ∧ nameIsMarkdown wf.name = true) := by
  obtain ⟨p, b, es, hl'⟩ := reach_listing h hr
  subst hl'
  have := listEntries_inv (mem_sortFiles.1 hw)
  exact ⟨this.1, this.2.1⟩

/-! ## Lemmas about the recent-workspaces list -/

theorem nodup_upsert {l : List Workspace} (w : Workspace)
    (h : (l.map Workspace.path).Nodup) :
    (((w :: l.filter fun x => x.path != w.path).take 10).map Workspace.path).Nodup := by
  refine List.Nodup.sublist ((List.take_sublist _ _).map _) ?_
  rw [List.map_cons, List.nodup_cons]
  constructor
  · intro hmem
    obtain ⟨x, hx, hxp⟩ := List.mem_map.1 hmem
    have hne := List.of_mem_filter hx
    rw [bne_iff_ne] at hne
    exact hne hxp
  · exact List.Nodup.sublist ((List.filter_sublist _).map _) h

theorem set_workspace_inv {cfg : WorkspaceConfig}
    (h : (cfg.recent_workspaces.map Workspace.path).Nodup) (p : String) :
    ConfigInv (set_workspace cfg p) := by
  constructor
  · simp only [set_workspace]
    exact List.length_take_le 10 _
  · simpa [set_workspace] using nodup_upsert (get_workspace_info p) h

theorem applyCalls_inv : ∀ (ps : List String) {cfg : WorkspaceConfig},
    ConfigInv cfg → ConfigInv (applyCalls cfg ps)
  | [], _, h => h
  | p :: ps, _, h => applyCalls_inv ps (set_workspace_inv h.2 p)

theorem set_workspace_length (cfg : WorkspaceConfig) (p : String) :
    (set_workspace cfg p).recent_workspaces.length =
      min 10 ((cfg.recent_workspaces.filter fun w => w.path != p).length + 1) := by
  simp [set_workspace, List.length_take, get_workspace_info]
  omega

theorem filter_ne_length_of_mem : ∀ {l : List Workspace} {p : String},
    (l.map Workspace.path).Nodup → p ∈ l.map Workspace.path →
    (l.filter fun w => w.path != p).length + 1 = l.length
  | [], p, _, hmem => by simp at hmem
  | w :: l, p, hnd, hmem => by
    rw [List.map_cons, List.nodup_cons] at hnd
    rw [List.map_cons] at hmem
    by_cases hwp : w.path = p
    · have hall : ∀ x ∈ l, (x.path != p) = true := by
        intro x hx
        rw [bne_iff_ne]
        intro hxp
        exact hnd.1 (hwp ▸ hxp ▸ List.mem_map_of_mem Workspace.path hx)
      rw [List.filter_cons, if_neg (by simp [hwp]), List.filter_eq_self.mpr hall]
      simp
    · have hmem' : p ∈ l.map Workspace.path := by
        rcases List.mem_cons.1 hmem with h | h
        · exact absurd h.symm hwp
        · exact h
      rw [List.filter_cons, if_pos (bne_iff_ne.2 hwp)]
      simp only [List.length_cons]
      rw [← filter_ne_length_of_mem hnd.2 hmem']

theorem set_workspace_fresh_length {cfg : WorkspaceConfig} {p : String}
    (hfresh : p ∉ cfg.recent_workspaces.map Workspace.path) :
    (set_workspace cfg p).recent_workspaces.length =
      min 10 (cfg.recent_workspaces.length + 1) := by
  rw [set_workspace_length]
  congr 2
  rw [List.filter_eq_self.mpr]
  intro w hw
  rw [bne_iff_ne]
  intro hwp
  exact hfresh (hwp ▸ List.mem_map_of_mem Workspace.path hw)

theorem set_workspace_paths {cfg : WorkspaceConfig} {p q : String}
    (hq : q ∈ (set_workspace cfg p).recent_workspaces.map Workspace.path) :
    q = p ∨ q ∈ cfg.recent_workspaces.map Workspace.path := by
  simp only [set_workspace] at hq
  obtain ⟨w, hw, rfl⟩ := List.mem_map.1 hq
  have hw' := List.take_subset _ _ hw
  rcases List.mem_cons.1 hw' with h | h
  · left
    rw [h]
    rfl
  · right
    exact List.mem_map_of_mem _ ((List.filter_sublist _).subset h)

theorem applyCalls_fresh_length : ∀ {ps : List String} {cfg : WorkspaceConfig},
    ConfigInv cfg → ps.Nodup →
    (∀ p ∈ ps, p ∉ cfg.recent_workspaces.map Workspace.path) →
    (applyCalls cfg ps).recent_workspaces.length =
      min 10 (cfg.recent_workspaces.length + ps.length)
  | [], _, hinv, _, _ => by
    simp only [applyCalls, List.length_nil, Nat.add_zero]
    exact (Nat.min_eq_right hinv.1).symm
  | p :: ps, cfg, hinv, hnd, hfresh => by
    rw [List.nodup_cons] at hnd
    have hfp : p ∉ cfg.recent_workspaces.map Workspace.path := hfresh p (.head _)
    have h1 : ConfigInv (set_workspace cfg p) := set_workspace_inv hinv.2 p
    have h2 : ∀ q ∈ ps, q ∉ (set_workspace cfg p).recent_workspaces.map Workspace.path := by
      intro q hq hmem
      rcases set_workspace_paths hmem with h | h
      · exact hnd.1 (h ▸ hq)
      · exact hfresh q (.tail _ hq) h
    show (applyCalls (set_workspace cfg p) ps).recent_workspaces.length = _
    rw [applyCalls_fresh_length h1 hnd.2 h2, set_workspace_fresh_length hfp]
    have h10 := hinv.1
    simp only [List.length_cons]
    omega

/-- The recent list produced by one `set_workspace` call, unfolded. -/
theorem set_workspace_recent (cfg : WorkspaceConfig) (p : String) :
    (set_workspace cfg p).recent_workspaces =
      (get_workspace_info p ::
        cfg.recent_workspaces.filter fun w => w.path != p).take 10 := rfl

theorem applyCalls_append : ∀ (ps : List String) (cfg : WorkspaceConfig) (p : String),
    applyCalls cfg (ps ++ [p]) = set_workspace (applyCalls cfg ps) p
  | [], _, _ => rfl
  | q :: qs, cfg, p => applyCalls_append qs (set_workspace cfg q) p

theorem dedupKeepFirst_nodup : ∀ (l : List String), (dedupKeepFirst l).Nodup
  | [] => List.nodup_nil
  | p :: ps => by
    rw [dedupKeepFirst, List.nodup_cons]
    refine ⟨?_, List.Nodup.filter _ (dedupKeepFirst_nodup ps)⟩
    intro hmem
    have hself := List.of_mem_filter hmem
    simp at hself

/-- Mapping `Workspace.path` commutes with the dedup filter of
`set_workspace`. -/
theorem map_path_filter : ∀ (l : List Workspace) (p : String),
    (l.filter fun w => w.path != p).map Workspace.path =
      (l.map Workspace.path).filter fun q => q != p
  | [], _ => rfl
  | w :: l, p => by
    simp only [List.filter_cons, List.map_cons]
    by_cases hwp : w.path = p
    · rw [if_neg (by simp [hwp]), if_neg (by simp [hwp]), map_path_filter l p]
    · rw [if_pos (bne_iff_ne.2 hwp), if_pos (bne_iff_ne.2 hwp), List.map_cons,
        map_path_filter l p]

/-- On a duplicate-free list, filtering one element out of the first `n + 1`
entries and truncating to `n` is the same as filtering the whole list and
truncating to `n`: per-call truncation to 10 agrees with end-of-sequence
truncation. -/
theorem take_filter_take : ∀ (n : Nat) (l : List String) (p : String), l.Nodup →
    ((l.take (n + 1)).filter fun q => q != p).take n =
      (l.filter fun q => q != p).take n
  | _, [], _, _ => by simp
  | n, x :: l, p, hnd => by
    rw [List.nodup_cons] at hnd
    rw [List.take_succ_cons, List.filter_cons, List.filter_cons]
    by_cases hxp : x = p
    · subst hxp
      have h1 : ∀ a ∈ l, (a != x) = true := fun a ha =>
        bne_iff_ne.2 fun h => hnd.1 (h ▸ ha)
      have h2 : ∀ a ∈ l.take n, (a != x) = true := fun a ha =>
        h1 a (List.take_subset n l ha)
      rw [if_neg (by simp), if_neg (by simp), List.filter_eq_self.mpr h1,
        List.filter_eq_self.mpr h2, List.take_take, Nat.min_self]
    · have hbx : (x != p) = true := bne_iff_ne.2 hxp
      rw [if_pos hbx, if_pos hbx]
      cases n with
      | zero => simp
      | succ m =>
        rw [List.take_succ_cons, List.take_succ_cons,
          take_filter_take m l p hnd.2]

/-- The sequence of stored paths after any call sequence from the default
configuration: the distinct requested paths, most-recent-first, truncated
to 10. -/
theorem applyCalls_paths_eq (ps : List String) :
    (applyCalls defaultWorkspaceConfig ps).recent_workspaces.map Workspace.path =
      (dedupKeepFirst ps.reverse).take 10 := by
  induction ps using List.reverseRecOn with
  | nil => rfl
  | append_singleton qs p ih =>
    rw [applyCalls_append, set_workspace_recent, List.reverse_append,
      List.reverse_singleton, List.singleton_append, dedupKeepFirst,
      List.map_take, List.map_cons, map_path_filter, ih]
    rw [show (10 : Nat) = 9 + 1 from rfl, List.take_succ_cons, List.take_succ_cons,
      take_filter_take 9 _ p (dedupKeepFirst_nodup _)]
    rfl

/-! ## Claim theorems -/

/-- C1 counterexample: listing a workspace whose root directory contains one
empty (readable) subdirectory returns a directory node for that
subdirectory with `children = some []`; this node is not the root being
listed (the root's own node never appears in the returned sequence), so
the result does contain a non-root directory node whose recursive listing
is empty. -/
theorem C1_counterexample :
    list_workspace_files "ws" (.dir "ws" true [.dir "sub" true []]) =
      .ok [⟨"sub", "ws/sub", true, some []⟩] ∧
    (WorkspaceFile.mk "sub" "ws/sub" true (some [])).isDirectory = true ∧
    (WorkspaceFile.mk "sub" "ws/sub" true (some [])).children = some [] ∧
    (WorkspaceFile.mk "sub" "ws/sub" true (some [])).path ≠ "ws" :=
  ⟨rfl, rfl, rfl, by decide⟩

/-- C1 (amended): in a `list_workspace_files` result, a directory node with
`children = some []` can occur only among the top-level nodes (the
immediate children of the listed root, which the root call includes even
when empty); every directory node strictly below the top level has a
non-empty `children` sequence. -/
theorem C1_amended_no_empty_children_below_top {path : String} {t : FsTree}
    {l m l' : List WorkspaceFile} {wf x : WorkspaceFile}
    (h : list_workspace_files path t = .ok l) (hwf : wf ∈ l)
    (hm : wf.children = some m) (hr : Reach m l') (hx : x ∈ l') :
    x.children ≠ some [] := by
  obtain ⟨n, es, _, hl⟩ := list_workspace_files_ok h
  subst hl
  obtain ⟨p2, es2, hm2⟩ := (listEntries_inv (mem_sortFiles.1 hwf)).2.2.1 _ hm
  have hshape : ∃ q es3, l' = sortFiles (listEntries q false es3) := by
    rcases reach_shape hr p2 false es2 hm2 with h' | h'
    · exact ⟨p2, es2, h'.trans hm2⟩
    · exact h'
  obtain ⟨q, es3, rfl⟩ := hshape
  exact (listEntries_inv (mem_sortFiles.1 hx)).2.2.2 rfl

/-- C1 amended, witness at a concrete two-level workspace. -/
theorem C1_amended_witness :
    (WorkspaceFile.mk "x.md" "w/d/x.md" false none).children ≠ some [] :=
  @C1_amended_no_empty_children_below_top "w" (.dir "w" true [.dir "d" true [.file "x.md"]])
    [⟨"d", "w/d", true, some [⟨"x.md", "w/d/x.md", false, none⟩]⟩]
    [⟨"x.md", "w/d/x.md", false, none⟩]
    [⟨"x.md", "w/d/x.md", false, none⟩]
    ⟨"d", "w/d", true, some [⟨"x.md", "w/d/x.md", false, none⟩]⟩
    ⟨"x.md", "w/d/x.md", false, none⟩
    rfl (List.mem_singleton.2 rfl) rfl (Reach.refl _) (List.mem_singleton.2 rfl)

/-- C2: every sibling sequence at every level of a `list_workspace_files`
result is ordered: directories precede files (once a file node occurs,
every later sibling is also a file node), and siblings of the same kind
are in case-insensitive lexicographic order by name. -/
theorem C2_sibling_order {path : String} {t : FsTree} {l l' : List WorkspaceFile}
    (h : list_workspace_files path t = .ok l) (hr : Reach l l') :
    l'.Pairwise fun a b =>
      (a.isDirectory = false → b.isDirectory = false) ∧
      (a.isDirectory = b.isDirectory → ciLE a.name b.name = true) := by
  obtain ⟨p, rb, es, rfl⟩ := reach_listing h hr
  refine (sortFiles_sorted _).imp ?_
  intro a b hab
  obtain ⟨na, pa, da, ca⟩ := a
  obtain ⟨nb, pb, db, cb⟩ := b
  cases da <;> cases db <;>
    simp_all [fileLE, fileLEb, WorkspaceFile.isDirectory, WorkspaceFile.name, ciLE]

/-- C2 witness: a concrete listing where the directory node precedes the
file nodes and `a.md` precedes `B.md`. -/
theorem C2_sibling_order_witness :
    ([⟨"d", "w/d", true, some [⟨"x.md", "w/d/x.md", false, none⟩]⟩,
      ⟨"a.md", "w/a.md", false, none⟩,
      ⟨"B.md", "w/B.md", false, none⟩] : List WorkspaceFile).Pairwise (fun a b =>
      (a.isDirectory = false → b.isDirectory = false) ∧
      (a.isDirectory = b.isDirectory → ciLE a.name b.name = true)) :=
  @C2_sibling_order "w" (.dir "w" true [.file "B.md", .file "a.md", .dir "d" true [.file "x.md"]])
    [⟨"d", "w/d", true, some [⟨"x.md", "w/d/x.md", false, none⟩]⟩,
      ⟨"a.md", "w/a.md", false, none⟩,
      ⟨"B.md", "w/B.md", false, none⟩]
    [⟨"d", "w/d", true, some [⟨"x.md", "w/d/x.md", false, none⟩]⟩,
      ⟨"a.md", "w/a.md", false, none⟩,
      ⟨"B.md", "w/B.md", false, none⟩]
    rfl (Reach.refl _)

/-- C3: `rename_file` fails with the not-found path error when the old path
does not exist, with the no-parent path error when the old path has no
parent directory, and with the already-exists path error — leaving the
filesystem unchanged — when `parent(old_path)/new_name` already exists;
otherwise it returns `parent(old_path)/new_name` and replaces the old path
by the new one. -/
theorem C3_rename_file (fs : FlatFs) (old_path new_name : String) :
    (fsMember fs old_path = false →
      rename_file fs old_path new_name = (.error (.path "Path does not exist"), fs)) ∧
    (fsMember fs old_path = true → parentOf old_path = none →
      rename_file fs old_path new_name =
        (.error (.path "Cannot determine parent directory"), fs)) ∧
    (∀ par, fsMember fs old_path = true → parentOf old_path = some par →
      fsMember fs (joinPath par new_name) = true →
      rename_file fs old_path new_name =
        (.error (.path "A file with that name already exists"), fs)) ∧
    (∀ par, fsMember fs old_path = true → parentOf old_path = some par →
      fsMember fs (joinPath par new_name) = false →
      rename_file fs old_path new_name =
        (.ok (joinPath par new_name),
          ⟨fs.paths.map fun q => if q = old_path then joinPath par new_name else q⟩)) := by
  refine ⟨?_, ?_, ?_, ?_⟩
  · intro h
    simp [rename_file, h]
  · intro h1 h2
    simp [rename_file, h1, h2]
  · intro par h1 h2 h3
    simp [rename_file, h1, h2, h3]
  · intro par h1 h2 h3
    simp [rename_file, h1, h2, h3]

/-- C3 witness: the four behaviours at concrete inputs; in particular the
already-exists failure leaves both files on disk untouched. -/
theorem C3_rename_file_witness :
    rename_file ⟨["/a/old.md", "/a/new.md"]⟩ "/a/old.md" "new.md" =
      (.error (.path "A file with that name already exists"), ⟨["/a/old.md", "/a/new.md"]⟩) ∧
    rename_file ⟨["/a/old.md"]⟩ "/a/old.md" "new.md" = (.ok "/a/new.md", ⟨["/a/new.md"]⟩) ∧
    rename_file ⟨["/b"]⟩ "/a/x.md" "y.md" = (.error (.path "Path does not exist"), ⟨["/b"]⟩) ∧
    rename_file ⟨["/"]⟩ "/" "y.md" =
      (.error (.path "Cannot determine parent directory"), ⟨["/"]⟩) :=
  ⟨(C3_rename_file ⟨["/a/old.md", "/a/new.md"]⟩ "/a/old.md" "new.md").2.2.1 "/a"
      (by decide) (by decide) (by decide),
   ((C3_rename_file ⟨["/a/old.md"]⟩ "/a/old.md" "new.md").2.2.2 "/a"
      (by decide) (by decide) (by decide)).trans (by rfl),
   (C3_rename_file ⟨["/b"]⟩ "/a/x.md" "y.md").1 (by decide),
   (C3_rename_file ⟨["/"]⟩ "/" "y.md").2.1 (by decide) (by decide)⟩

/-- C4: after any sequence of `set_workspace` calls starting from the
default configuration, the recent list is ordered most-recent-first — its
path sequence is exactly the distinct requested paths ordered by latest
call, latest first, truncated to 10 — hence it holds at most 10 entries
with no duplicate paths; a further call puts the new workspace record at
the front, and does not grow the list when the path is already present;
11 calls with 11 distinct paths leave exactly 10 entries. -/
theorem C4_recent_workspaces_bounded (ps : List String) :
    (applyCalls defaultWorkspaceConfig ps).recent_workspaces.map Workspace.path =
      (dedupKeepFirst ps.reverse).take 10 ∧
    (applyCalls defaultWorkspaceConfig ps).recent_workspaces.length ≤ 10 ∧
    ((applyCalls defaultWorkspaceConfig ps).recent_workspaces.map Workspace.path).Nodup ∧
    (∀ p, (set_workspace (applyCalls defaultWorkspaceConfig ps) p).recent_workspaces.head? =
      some (get_workspace_info p)) ∧
    (∀ p, p ∈ (applyCalls defaultWorkspaceConfig ps).recent_workspaces.map Workspace.path →
      (set_workspace (applyCalls defaultWorkspaceConfig ps) p).recent_workspaces.length =
        (applyCalls defaultWorkspaceConfig ps).recent_workspaces.length) ∧
    (ps.Nodup → ps.length = 11 →
      (applyCalls defaultWorkspaceConfig ps).recent_workspaces.length = 10) := by
  have hinv : ConfigInv (applyCalls defaultWorkspaceConfig ps) :=
    applyCalls_inv ps ⟨by simp [defaultWorkspaceConfig], by simp [defaultWorkspaceConfig]⟩
  refine ⟨applyCalls_paths_eq ps, hinv.1, hinv.2, fun p => rfl, ?_, ?_⟩
  · intro p hp
    rw [set_workspace_length, filter_ne_length_of_mem hinv.2 hp]
    exact Nat.min_eq_right hinv.1
  · intro hnd hlen
    rw [applyCalls_fresh_length
      ⟨by simp [defaultWorkspaceConfig], by simp [defaultWorkspaceConfig]⟩ hnd
      (by simp [defaultWorkspaceConfig])]
    simp only [defaultWorkspaceConfig, List.length_nil, hlen]
    omega

/-- C4 witness: 11 distinct paths leave exactly 10 entries, re-setting
the 2nd-most-recent path does not grow the list, and after the calls
`a, b, c, b` the stored paths read `b, c, a` — most recent first. -/
theorem C4_recent_workspaces_bounded_witness :
    (applyCalls defaultWorkspaceConfig
      ["p1", "p2", "p3", "p4", "p5", "p6", "p7", "p8", "p9", "p10", "p11"]
      ).recent_workspaces.length = 10 ∧
    (set_workspace (applyCalls defaultWorkspaceConfig
      ["p1", "p2", "p3", "p4", "p5", "p6", "p7", "p8", "p9", "p10", "p11"]) "p10"
      ).recent_workspaces.length =
      (applyCalls defaultWorkspaceConfig
        ["p1", "p2", "p3", "p4", "p5", "p6", "p7", "p8", "p9", "p10", "p11"]
        ).recent_workspaces.length ∧
    (applyCalls defaultWorkspaceConfig ["a", "b", "c", "b"]).recent_workspaces.map
      Workspace.path = ["b", "c", "a"] :=
  ⟨(C4_recent_workspaces_bounded _).2.2.2.2.2 (by decide) rfl,
   (C4_recent_workspaces_bounded _).2.2.2.2.1 "p10" (by decide),
   ((C4_recent_workspaces_bounded ["a", "b", "c", "b"]).1).trans (by rfl)⟩

/-- C5: `is_markdown_file` holds exactly for paths whose extension
lower-cases to `md`, `markdown` or `mdown`; it accepts `.md`, `.MD`,
`.Markdown` and `.mdown` and rejects `.txt`, `.rs` and extensionless
names; and every leaf (non-directory) node anywhere in a
`list_workspace_files` result has a markdown name. -/
theorem C5_content_file_predicate :
    (∀ p, is_markdown_file p = true ↔
      ∃ ext, extensionOf p = some ext ∧
        (lowerStr ext = "md" ∨ lowerStr ext = "markdown" ∨ lowerStr ext = "mdown")) ∧
    (is_markdown_file "/path/to/file.md" = true ∧
      is_markdown_file "/path/to/file.MD" = true ∧
      is_markdown_file "/path/to/file.Markdown" = true ∧
      is_markdown_file "/path/to/file.mdown" = true ∧
      is_markdown_file "/path/to/file.txt" = false ∧
      is_markdown_file "/path/to/file.rs" = false ∧
      is_markdown_file "/path/to/file" = false) ∧
    (∀ path t l l' wf, list_workspace_files path t = .ok l → Reach l l' →
      wf ∈ l' → wf.isDirectory = false → nameIsMarkdown wf.name = true) := by
  refine ⟨?_, ?_, ?_⟩
  · intro p
    cases hext : extensionOf p with
    | none => simp [is_markdown_file, hext]
    | some e => simp [is_markdown_file, hext, or_assoc]
  · exact ⟨by decide, by decide, by decide, by decide, by decide, by decide, by decide⟩
  · intro path t l l' wf h hr hw hd
    exact ((reach_node_inv h hr hw).2 hd).2

/-- C5 witness: the leaf-node clause at a one-file workspace. -/
theorem C5_content_file_predicate_witness : nameIsMarkdown "x.md" = true :=
  C5_content_file_predicate.2.2 "w" (.dir "w" true [.file "x.md"])
    [⟨"x.md", "w/x.md", false, none⟩] [⟨"x.md", "w/x.md", false, none⟩]
    ⟨"x.md", "w/x.md", false, none⟩ rfl (Reach.refl _) (List.mem_singleton.2 rfl) rfl

/-- C6: no node anywhere in a `list_workspace_files` result has a name
beginning with a dot or equal to `node_modules` or `target`; and an
excluded entry contributes nothing to the listing — the collection loop
produces the same result as with the entry removed, without recursing into
it. -/
theorem C6_excluded_entries :
    (∀ path t l l' wf, list_workspace_files path t = .ok l → Reach l l' → wf ∈ l' →
      strHead? wf.name ≠ some '.' ∧ wf.name ≠ "node_modules" ∧ wf.name ≠ "target") ∧
    (∀ parent isRoot e rest, excludedName (fsName e) = true →
      listEntries parent isRoot (e :: rest) = listEntries parent isRoot rest) := by
  constructor
  · intro path t l l' wf h hr hw
    have hex := (reach_node_inv h hr hw).1
    simp only [excludedName, Bool.or_eq_false_iff, beq_eq_false_iff_ne, ne_eq] at hex
    exact ⟨hex.1.1, hex.1.2, hex.2⟩
  · intro parent isRoot e rest hex
    cases e with
    | file n =>
      simp only [fsName] at hex
      simp [listEntries, entryNodes, hex]
    | dir n r des =>
      simp only [fsName] at hex
      cases r <;> simp [listEntries, entryNodes, hex]

/-- C6 witness: a listed node's name is not excluded, and a `node_modules`
entry is dropped from the collection loop together with its subtree. -/
theorem C6_excluded_entries_witness :
    (strHead? "x.md" ≠ some '.' ∧ "x.md" ≠ "node_modules" ∧ "x.md" ≠ "target") ∧
    listEntries "w" true [.dir "node_modules" true [.file "a.md"], .file "x.md"] =
      listEntries "w" true [.file "x.md"] :=
  ⟨C6_excluded_entries.1 "w" (.dir "w" true [.file "x.md"])
      [⟨"x.md", "w/x.md", false, none⟩] [⟨"x.md", "w/x.md", false, none⟩]
      ⟨"x.md", "w/x.md", false, none⟩ rfl (Reach.refl _) (List.mem_singleton.2 rfl),
   C6_excluded_entries.2 "w" true (.dir "node_modules" true [.file "a.md"])
      [.file "x.md"] (by decide)⟩

/-- C7: the failure of a single child's recursive listing never fails the
enclosing listing: `list_directory` on a readable directory always
succeeds whatever its entries are, and an unreadable (non-excluded) child
directory is treated as having no children — dropped in a non-root
listing, included with `children = none` in the root listing — while the
rest of the listing is unaffected. -/
theorem C7_child_failure_isolation :
    (∀ path n es isRoot, list_directory path (.dir n true es) isRoot =
      .ok (sortFiles (listEntries path isRoot es))) ∧
    (∀ parent d des rest, excludedName d = false →
      listEntries parent false (.dir d false des :: rest) =
        listEntries parent false rest) ∧
    (∀ parent d des rest, excludedName d = false →
      listEntries parent true (.dir d false des :: rest) =
        ⟨d, joinPath parent d, true, none⟩ :: listEntries parent true rest) := by
  refine ⟨fun _ _ _ _ => rfl, ?_, ?_⟩
  · intro parent d des rest hex
    simp [listEntries, entryNodes, hex]
  · intro parent d des rest hex
    simp [listEntries, entryNodes, hex]

/-- C7 witness: a workspace with one unreadable subdirectory still lists,
and the unreadable child is dropped below the root and kept childless at
the root. -/
theorem C7_child_failure_isolation_witness :
    list_directory "w" (.dir "w" true [.dir "bad" false [.file "z.md"], .file "a.md"]) true =
      .ok [⟨"bad", "w/bad", true, none⟩, ⟨"a.md", "w/a.md", false, none⟩] ∧
    listEntries "w" false [.dir "bad" false [.file "z.md"], .file "a.md"] =
      listEntries "w" false [.file "a.md"] ∧
    listEntries "w" true [.dir "bad" false [.file "z.md"]] =
      [⟨"bad", "w/bad", true, none⟩] :=
  ⟨(C7_child_failure_isolation.1 "w" "w"
      [.dir "bad" false [.file "z.md"], .file "a.md"] true).trans (by rfl),
   C7_child_failure_isolation.2.1 "w" "bad" [.file "z.md"] [.file "a.md"] (by decide),
   (C7_child_failure_isolation.2.2 "w" "bad" [.file "z.md"] [] (by decide)).trans (by rfl)⟩

/-- C8: `get_current_workspace` returns the stored workspace — with name
derived from its final path segment — when the stored path exists, and
returns `.ok none` (not an error) when nothing is stored or the stored
path no longer exists. -/
theorem C8_get_current_workspace (cfg : WorkspaceConfig) (fs : List String) :
    (∀ p, cfg.current_workspace = some p → fs.contains p = true →
      get_current_workspace (some cfg) fs =
        .ok (some ⟨p, (fileNameOf p).getD "Workspace"⟩)) ∧
    (cfg.current_workspace = none → get_current_workspace (some cfg) fs = .ok none) ∧
    (∀ p, cfg.current_workspace = some p → fs.contains p = false →
      get_current_workspace (some cfg) fs = .ok none) := by
  refine ⟨?_, ?_, ?_⟩
  · intro p h1 h2
    simp [get_current_workspace, load_workspace_config, h1, get_workspace_info]
    simpa using h2
  · intro h1
    simp [get_current_workspace, load_workspace_config, h1]
  · intro p h1 h2
    simp [get_current_workspace, load_workspace_config, h1]
    simpa using h2

/-- C8 witness: an existing stored path, a stale stored path, and an empty
store. -/
theorem C8_get_current_workspace_witness :
    get_current_workspace (some ⟨some "/home/u/notes", []⟩) ["/home/u/notes"] =
      .ok (some ⟨"/home/u/notes", "notes"⟩) ∧
    get_current_workspace (some ⟨some "/home/u/gone", []⟩) ["/home/u/notes"] = .ok none ∧
    get_current_workspace (some ⟨none, []⟩) ["/home/u/notes"] = .ok none :=
  ⟨(C8_get_current_workspace ⟨some "/home/u/notes", []⟩ ["/home/u/notes"]).1
      "/home/u/notes" rfl (by decide),
   (C8_get_current_workspace ⟨some "/home/u/gone", []⟩ ["/home/u/notes"]).2.2
      "/home/u/gone" rfl (by decide),
   (C8_get_current_workspace ⟨none, []⟩ ["/home/u/notes"]).2.1 rfl⟩

/-- C9: `set_workspace` consults no filesystem state (the model takes no
filesystem argument at all): for every path string, existing on disk or
not, the call succeeds, stores the path as the current workspace, and puts
its workspace record at the front of the recent list. -/
theorem C9_set_workspace_unchecked (cfg : WorkspaceConfig) (path : String) :
    (set_workspace cfg path).current_workspace = some path ∧
    (set_workspace cfg path).recent_workspaces.head? = some (get_workspace_info path) :=
  ⟨rfl, rfl⟩

/-- C10: loading a missing config file yields the default configuration —
not an error — so `get_current_workspace` returns `.ok none` and
`get_recent_workspaces` returns `.ok []`. -/
theorem C10_missing_config_defaults (fs : List String) :
    load_workspace_config none = .ok defaultWorkspaceConfig ∧
    defaultWorkspaceConfig.current_workspace = none ∧
    defaultWorkspaceConfig.recent_workspaces = [] ∧
    get_current_workspace none fs = .ok none ∧
    get_recent_workspaces none fs = .ok [] :=
  ⟨rfl, rfl, rfl, rfl, rfl⟩

end Miku
